import Mathlib

/-!
Shallow embedding of the `wpilib.kinematics` repository (SE(2) geometry,
swerve-drive kinematics and odometry) over the real numbers, together with
proofs checking the repository specification against the code.

Python floats are modelled as real numbers; `math.sin`, `math.cos`,
`math.hypot` and `math.atan2` are modelled by their exact mathematical
counterparts (`Real.sin`, `Real.cos`, `Real.sqrt`, `Complex.arg`).
-/

open scoped Classical

noncomputable section

/-- Models Python `math.atan2(y, x)`: the argument of the complex number
`x + y*I`, with value in `(-π, π]` and `atan2 0 0 = 0`. -/
def atan2 (y x : ℝ) : ℝ := Complex.arg ⟨x, y⟩

/-- Models Python `math.hypot(x, y)`. -/
def hypot (x y : ℝ) : ℝ := Real.sqrt (x ^ 2 + y ^ 2)

/-- The representative of an angle in `(-π, π]`; this is the value `atan2`
returns for a point at angle `x` on the unit circle. -/
def principalAngle (x : ℝ) : ℝ := toIocMod Real.two_pi_pos (-Real.pi) x

/-- `wpilib.geometry.rotation2d.Rotation2d`: the stored triple
`(value, cos, sin)`. Any triple is representable; the constructors below
mirror `Rotation2d.__init__`. -/
structure Rotation2d where
  value : ℝ
  cos : ℝ
  sin : ℝ
  deriving DecidableEq

/-- `Rotation2d()` (zero-argument branch of `__init__`). -/
def Rotation2d.zero : Rotation2d := ⟨0, 1, 0⟩

/-- `Rotation2d(value)` (one-argument branch of `__init__`). -/
def Rotation2d.ofRadians (value : ℝ) : Rotation2d :=
  ⟨value, Real.cos value, Real.sin value⟩

/-- `Rotation2d(x, y)` (two-argument branch of `__init__`): normalise through
the magnitude when it exceeds `1e-6`, otherwise default to the identity
components; the stored value is `atan2(sin, cos)` of the stored components. -/
def Rotation2d.ofXY (x y : ℝ) : Rotation2d :=
  let magnitude := hypot x y
  let s := if magnitude > 1e-6 then y / magnitude else 0
  let c := if magnitude > 1e-6 then x / magnitude else 1
  ⟨atan2 s c, c, s⟩

/-- `Rotation2d.__add__`: compose via the angle-sum identities on the stored
components, renormalising through the two-argument constructor. -/
def Rotation2d.add (a other : Rotation2d) : Rotation2d :=
  Rotation2d.ofXY (a.cos * other.cos - a.sin * other.sin)
    (a.cos * other.sin + a.sin * other.cos)

/-- `Rotation2d.__neg__`: rebuild from the negated radian value. -/
def Rotation2d.neg (r : Rotation2d) : Rotation2d := Rotation2d.ofRadians (-r.value)

/-- `Rotation2d.__sub__`: `self + (-other)`. -/
def Rotation2d.sub (a other : Rotation2d) : Rotation2d := a.add other.neg

/-- `Rotation2d.__mul__`: rebuild from the scaled radian value. -/
def Rotation2d.mulScalar (r : Rotation2d) (k : ℝ) : Rotation2d :=
  Rotation2d.ofRadians (r.value * k)

/-- The data invariant of `Rotation2d`: the stored components are the cosine
and sine of the stored radian value. -/
def Rotation2d.Consistent (r : Rotation2d) : Prop :=
  r.cos = Real.cos r.value ∧ r.sin = Real.sin r.value

/-- `wpilib.geometry.translation2d.Translation2d`. -/
structure Translation2d where
  x : ℝ
  y : ℝ
  deriving DecidableEq

/-- The default `Translation2d()`, i.e. the origin. -/
def Translation2d.zero : Translation2d := ⟨0, 0⟩

/-- `Translation2d.rotateBy`: multiply by the rotation matrix built from the
stored `cos`/`sin` of `other`. -/
def Translation2d.rotateBy (t : Translation2d) (other : Rotation2d) : Translation2d :=
  ⟨t.x * other.cos - t.y * other.sin, t.x * other.sin + t.y * other.cos⟩

/-- `Translation2d.__add__`. -/
def Translation2d.add (a b : Translation2d) : Translation2d := ⟨a.x + b.x, a.y + b.y⟩

/-- `Translation2d.__sub__`. -/
def Translation2d.sub (a b : Translation2d) : Translation2d := ⟨a.x - b.x, a.y - b.y⟩

/-- `Translation2d.__mul__` (scalar). -/
def Translation2d.mulScalar (t : Translation2d) (k : ℝ) : Translation2d :=
  ⟨t.x * k, t.y * k⟩

/-- `wpilib.geometry.twist2d.Twist2d`. -/
structure Twist2d where
  dx : ℝ
  dy : ℝ
  dtheta : ℝ
  deriving DecidableEq

/-- `wpilib.geometry.Transform2d`. -/
structure Transform2d where
  translation : Translation2d
  rotation : Rotation2d
  deriving DecidableEq

/-- `wpilib.geometry.Pose2d`. -/
structure Pose2d where
  translation : Translation2d
  rotation : Rotation2d
  deriving DecidableEq

/-- `Pose2d.__add__`: rotate the transform translation into the pose frame,
add, and compose the rotations. -/
def Pose2d.add (p : Pose2d) (other : Transform2d) : Pose2d :=
  ⟨p.translation.add (other.translation.rotateBy p.rotation),
    p.rotation.add other.rotation⟩

/-- `Pose2d.__sub__`: the transform mapping `other` onto `p`, expressed in
the frame of `other`. -/
def Pose2d.sub (p other : Pose2d) : Transform2d :=
  ⟨(p.translation.sub other.translation).rotateBy other.rotation.neg,
    p.rotation.sub other.rotation⟩

/-- `Pose2d.exp`: the pose exponential with the small-angle series branch of
the source (`|dtheta| < 1e-9`). -/
def Pose2d.exp (p : Pose2d) (twist : Twist2d) : Pose2d :=
  let dx := twist.dx
  let dy := twist.dy
  let dtheta := twist.dtheta
  let sinTheta := Real.sin dtheta
  let cosTheta := Real.cos dtheta
  let s := if |dtheta| < 1e-9 then 1 - 1 / 6 * dtheta ^ 2 else sinTheta / dtheta
  let c := if |dtheta| < 1e-9 then 0.5 * dtheta else (1 - cosTheta) / dtheta
  p.add ⟨⟨dx * s - dy * c, dx * c + dy * s⟩, Rotation2d.ofXY cosTheta sinTheta⟩

/-- `Pose2d.log`: the pose logarithm with the small-angle series branch of
the source (`|cos - 1| < 1e-9`). -/
def Pose2d.log (p endPose : Pose2d) : Twist2d :=
  let transform := endPose.sub p
  let dtheta := transform.rotation.value
  let halfDtheta := 0.5 * dtheta
  let cosMinusOne := transform.rotation.cos - 1
  let halfThetaByTanHalfDtheta :=
    if |cosMinusOne| < 1e-9 then 1 - 1 / 12 * dtheta ^ 2
    else -(halfDtheta * transform.rotation.sin) / cosMinusOne
  let translationPart :=
    (transform.translation.rotateBy
        (Rotation2d.ofXY halfThetaByTanHalfDtheta (-halfDtheta))).mulScalar
      (hypot halfThetaByTanHalfDtheta halfDtheta)
  ⟨translationPart.x, translationPart.y, dtheta⟩

/-! ### Basic facts about `principalAngle`, `atan2` and the constructors -/

theorem principalAngle_mem (x : ℝ) : principalAngle x ∈ Set.Ioc (-Real.pi) Real.pi := by
  have h := toIocMod_mem_Ioc Real.two_pi_pos (-Real.pi) x
  have h2 : -Real.pi + 2 * Real.pi = Real.pi := by ring
  rwa [h2] at h

theorem principalAngle_eq_self {x : ℝ} (hx : x ∈ Set.Ioc (-Real.pi) Real.pi) :
    principalAngle x = x := by
  have h2 : -Real.pi + 2 * Real.pi = Real.pi := by ring
  exact (toIocMod_eq_self Real.two_pi_pos).2 (by rw [h2]; exact hx)

theorem principalAngle_sub_int_mul (x : ℝ) (z : ℤ) :
    principalAngle (x - z * (2 * Real.pi)) = principalAngle x := by
  have : x - z * (2 * Real.pi) = x + (-z) • (2 * Real.pi) := by
    rw [zsmul_eq_mul]
    push_cast
    ring
  rw [this, principalAngle, toIocMod_add_zsmul]
  rfl

theorem exists_principalAngle_eq_sub (x : ℝ) :
    ∃ z : ℤ, principalAngle x = x - z * (2 * Real.pi) := by
  refine ⟨toIocDiv Real.two_pi_pos (-Real.pi) x, ?_⟩
  rw [principalAngle, toIocMod, zsmul_eq_mul]

theorem cos_principalAngle (x : ℝ) : Real.cos (principalAngle x) = Real.cos x := by
  obtain ⟨z, hz⟩ := exists_principalAngle_eq_sub x
  rw [hz, Real.cos_sub_int_mul_two_pi]

theorem sin_principalAngle (x : ℝ) : Real.sin (principalAngle x) = Real.sin x := by
  obtain ⟨z, hz⟩ := exists_principalAngle_eq_sub x
  rw [hz, Real.sin_sub_int_mul_two_pi]

theorem atan2_cos_sin (x : ℝ) : atan2 (Real.sin x) (Real.cos x) = principalAngle x := by
  rw [atan2, Complex.mk_eq_add_mul_I, Complex.ofReal_cos, Complex.ofReal_sin]
  exact Complex.arg_cos_add_sin_mul_I_eq_toIocMod x

theorem principalAngle_zero : principalAngle 0 = 0 :=
  principalAngle_eq_self ⟨neg_neg_iff_pos.mpr Real.pi_pos, Real.pi_pos.le⟩

theorem principalAngle_two_pi : principalAngle (2 * Real.pi) = 0 := by
  have h := principalAngle_sub_int_mul (2 * Real.pi) 1
  rw [show (2 * Real.pi) - (1 : ℤ) * (2 * Real.pi) = 0 by push_cast; ring] at h
  rw [← h, principalAngle_zero]

theorem ofXY_cos_sin (x : ℝ) :
    Rotation2d.ofXY (Real.cos x) (Real.sin x) =
      ⟨principalAngle x, Real.cos x, Real.sin x⟩ := by
  have hsq : Real.cos x ^ 2 + Real.sin x ^ 2 = 1 := Real.cos_sq_add_sin_sq x
  have hm : hypot (Real.cos x) (Real.sin x) = 1 := by
    rw [hypot, hsq, Real.sqrt_one]
  rw [Rotation2d.ofXY]
  simp only [hm]
  have h1 : (1 : ℝ) > 1e-6 := by norm_num
  simp only [if_pos h1, div_one]
  rw [atan2_cos_sin]

theorem ofXY_one_zero : Rotation2d.ofXY 1 0 = ⟨0, 1, 0⟩ := by
  have h := ofXY_cos_sin 0
  rwa [Real.cos_zero, Real.sin_zero, principalAngle_eq_self
    ⟨neg_neg_iff_pos.mpr Real.pi_pos, Real.pi_pos.le⟩] at h

theorem zero_consistent : Rotation2d.zero.Consistent := by
  constructor <;> simp [Rotation2d.zero]

theorem ofRadians_consistent (v : ℝ) : (Rotation2d.ofRadians v).Consistent :=
  ⟨rfl, rfl⟩

theorem ofXY_consistent (x y : ℝ) : (Rotation2d.ofXY x y).Consistent := by
  rw [Rotation2d.ofXY, Rotation2d.Consistent]
  by_cases h : hypot x y > 1e-6
  · simp only [if_pos h]
    have hm0 : (0 : ℝ) < hypot x y := lt_trans (by norm_num) h
    have hsq : hypot x y ^ 2 = x ^ 2 + y ^ 2 := Real.sq_sqrt (by positivity)
    have habs : Complex.abs ⟨x / hypot x y, y / hypot x y⟩ = 1 := by
      rw [Complex.abs_apply, Complex.normSq_mk]
      have : x / hypot x y * (x / hypot x y) + y / hypot x y * (y / hypot x y) = 1 := by
        field_simp
        linarith [hsq]
      rw [this, Real.sqrt_one]
    have hz : (⟨x / hypot x y, y / hypot x y⟩ : ℂ) ≠ 0 := by
      intro h0
      rw [h0] at habs
      simp at habs
    constructor
    · rw [atan2, Complex.cos_arg hz, habs, div_one]
    · rw [atan2, Complex.sin_arg, habs, div_one]
  · simp only [if_neg h]
    have h10 : (⟨1, 0⟩ : ℂ) = 1 := Complex.ext (by simp) (by simp)
    constructor
    · rw [atan2, h10, Complex.arg_one, Real.cos_zero]
    · rw [atan2, h10, Complex.arg_one, Real.sin_zero]

theorem add_consistent (a b : Rotation2d) : (a.add b).Consistent :=
  ofXY_consistent _ _

theorem neg_consistent (r : Rotation2d) : r.neg.Consistent :=
  ofRadians_consistent _

theorem sub_consistent (a b : Rotation2d) : (a.sub b).Consistent :=
  ofXY_consistent _ _

theorem mulScalar_consistent (r : Rotation2d) (k : ℝ) : (r.mulScalar k).Consistent :=
  ofRadians_consistent _

/-- On consistent inputs, composition produces the (renormalised) angle sum. -/
theorem add_eq_of_consistent {a b : Rotation2d} (ha : a.Consistent) (hb : b.Consistent) :
    a.add b = ⟨principalAngle (a.value + b.value), Real.cos (a.value + b.value),
      Real.sin (a.value + b.value)⟩ := by
  have hc : a.cos * b.cos - a.sin * b.sin = Real.cos (a.value + b.value) := by
    rw [ha.1, ha.2, hb.1, hb.2, Real.cos_add]
  have hs : a.cos * b.sin + a.sin * b.cos = Real.sin (a.value + b.value) := by
    rw [ha.1, ha.2, hb.1, hb.2, Real.sin_add]
    ring
  rw [Rotation2d.add, hc, hs, ofXY_cos_sin]

/-- On a consistent input, subtraction produces the (renormalised) angle
difference. -/
theorem sub_eq_of_consistent {a b : Rotation2d} (ha : a.Consistent) (hb : b.Consistent) :
    a.sub b = ⟨principalAngle (a.value - b.value), Real.cos (a.value - b.value),
      Real.sin (a.value - b.value)⟩ := by
  rw [Rotation2d.sub, add_eq_of_consistent ha (neg_consistent b)]
  rw [Rotation2d.neg, Rotation2d.ofRadians]
  norm_num [sub_eq_add_neg]

/-- Rotating by `r.neg` and then by `r` is the identity on consistent `r`. -/
theorem rotateBy_neg_rotateBy {r : Rotation2d} (hr : r.Consistent) (v : Translation2d) :
    (v.rotateBy r.neg).rotateBy r = v := by
  have hsq : Real.sin r.value ^ 2 + Real.cos r.value ^ 2 = 1 := Real.sin_sq_add_cos_sq _
  cases v with
  | mk vx vy =>
      rw [Rotation2d.neg, Rotation2d.ofRadians, Translation2d.rotateBy, Translation2d.rotateBy]
      simp only [Real.cos_neg, Real.sin_neg, hr.1, hr.2]
      congr 1
      · linear_combination vx * hsq
      · linear_combination vy * hsq

/-! ### Kinematics data model -/

/-- Python `math.isclose` with its default tolerances
(`rel_tol = 1e-9`, `abs_tol = 0`). -/
def isclose (a b : ℝ) : Prop := |a - b| ≤ 1e-9 * max |a| |b|

/-- `Translation2d.__eq__`: componentwise `math.isclose`. -/
def Translation2d.approxEq (a b : Translation2d) : Prop :=
  isclose a.x b.x ∧ isclose a.y b.y

/-- `wpilib.kinematics.chassisspeeds.ChassisSpeeds`. -/
structure ChassisSpeeds where
  vx : ℝ
  vy : ℝ
  omega : ℝ
  deriving DecidableEq

/-- `ChassisSpeeds.fromFieldRelativeSpeeds`. -/
def ChassisSpeeds.fromFieldRelativeSpeeds (vx vy omega : ℝ) (robotAngle : Rotation2d) :
    ChassisSpeeds :=
  ⟨vx * robotAngle.cos + vy * robotAngle.sin,
    -vx * robotAngle.sin + vy * robotAngle.cos, omega⟩

/-- `wpilib.kinematics.swerve.SwerveModuleState`. -/
structure SwerveModuleState where
  speed : ℝ
  angle : Rotation2d
  deriving DecidableEq

instance : Inhabited SwerveModuleState := ⟨⟨0, Rotation2d.zero⟩⟩

/-- The inverse-kinematics matrix rows of `SwerveDriveKinematics`: module `i`
contributes the row pair `[1, 0, -module.y + cor.y]`, `[0, 1, module.x - cor.x]`.
Row `(i, 0)` is the x-velocity row and `(i, 1)` the y-velocity row of module
`i`.  The construction-time matrix of `__init__` is this matrix at the origin
center of rotation. -/
def inverseKinematicsMatrix (n : ℕ) (modules : Fin n → Translation2d)
    (cor : Translation2d) : Matrix (Fin n × Fin 2) (Fin 3) ℝ :=
  fun p j =>
    if j = 0 then (if p.2 = 0 then 1 else 0)
    else if j = 1 then (if p.2 = 0 then 0 else 1)
    else (if p.2 = 0 then -(modules p.1).y + cor.y else (modules p.1).x - cor.x)

/-- The in-place update of `toSwerveModuleStates`: overwrite only the third
column (the rotation-coupling column) from the module offsets and the new
center of rotation, keeping the rest of the matrix. -/
def rebuildThirdColumn (n : ℕ) (A : Matrix (Fin n × Fin 2) (Fin 3) ℝ)
    (modules : Fin n → Translation2d) (cor : Translation2d) :
    Matrix (Fin n × Fin 2) (Fin 3) ℝ :=
  fun p j =>
    if j = 2 then (if p.2 = 0 then -(modules p.1).y + cor.y else (modules p.1).x - cor.x)
    else A p j

/-- Models `np.linalg.pinv` for the `2N x 3` inverse-kinematics matrix.  On
every matrix of full column rank (the only case the repository exercises:
at least two modules at distinct positions) the Moore-Penrose pseudoinverse
is `(Aᵀ A)⁻¹ Aᵀ`, which is what this definition computes. -/
def pinv {m : Type} [Fintype m] (A : Matrix m (Fin 3) ℝ) : Matrix (Fin 3) m ℝ :=
  (A.transpose * A)⁻¹ * A.transpose

/-- `wpilib.kinematics.swerve.SwerveDriveKinematics`: the module offsets and
the mutable derived state (`_inverse_kinematics`, `forward_kinematics`,
`_prev_cor`). -/
structure SwerveDriveKinematics where
  numModules : ℕ
  modules : Fin numModules → Translation2d
  inverseKinematics : Matrix (Fin numModules × Fin 2) (Fin 3) ℝ
  forwardKinematics : Matrix (Fin 3) (Fin numModules × Fin 2) ℝ
  prevCor : Translation2d

/-- `SwerveDriveKinematics.__init__`: `none` models the `assert` failing when
fewer than two wheels are supplied; otherwise build the inverse-kinematics
matrix (third column `-module.y`, `module.x`, i.e. center of rotation at the
origin) and its pseudoinverse, and cache the origin as the previous center of
rotation. -/
def SwerveDriveKinematics.ofWheels (wheels : List Translation2d) :
    Option SwerveDriveKinematics :=
  if h : 2 ≤ wheels.length then
    some { numModules := wheels.length
           modules := fun i => wheels.get i
           inverseKinematics :=
             inverseKinematicsMatrix wheels.length (fun i => wheels.get i) Translation2d.zero
           forwardKinematics :=
             pinv (inverseKinematicsMatrix wheels.length (fun i => wheels.get i)
               Translation2d.zero)
           prevCor := Translation2d.zero }
  else none

/-- `SwerveDriveKinematics.toSwerveModuleStates`: rebuild the third column of
the cached matrix when the requested center of rotation differs (under the
source's approximate `Translation2d` equality) from the cached one, multiply
by the chassis velocity vector, and convert each module's `(x, y)` velocity
into a `(hypot, atan2)` module state.  Returns the updated object state
together with the module states.  `forwardKinematics` is left untouched. -/
def SwerveDriveKinematics.toSwerveModuleStates (k : SwerveDriveKinematics)
    (chassisSpeeds : ChassisSpeeds) (centerOfRotation : Translation2d) :
    SwerveDriveKinematics × List SwerveModuleState :=
  let newIK :=
    if k.prevCor.approxEq centerOfRotation then k.inverseKinematics
    else rebuildThirdColumn k.numModules k.inverseKinematics k.modules centerOfRotation
  let newPrevCor := if k.prevCor.approxEq centerOfRotation then k.prevCor else centerOfRotation
  let chassisVelVec : Fin 3 → ℝ := ![chassisSpeeds.vx, chassisSpeeds.vy, chassisSpeeds.omega]
  ({ k with inverseKinematics := newIK, prevCor := newPrevCor },
    List.ofFn fun i : Fin k.numModules =>
      let x := newIK.mulVec chassisVelVec (i, 0)
      let y := newIK.mulVec chassisVelVec (i, 1)
      ⟨hypot x y, Rotation2d.ofXY x y⟩)

/-- `SwerveDriveKinematics.toChassisSpeeds`: `none` models the `assert`
failing when the number of wheel states differs from the configured module
count; otherwise rebuild each module's Cartesian velocity from
`(speed, angle)`, flatten, and multiply by the cached `forwardKinematics`. -/
def SwerveDriveKinematics.toChassisSpeeds (k : SwerveDriveKinematics)
    (wheelStates : List SwerveModuleState) : Option ChassisSpeeds :=
  if h : wheelStates.length = k.numModules then
    let moduleStatesMat : Fin k.numModules × Fin 2 → ℝ := fun p =>
      let m := wheelStates.get (Fin.cast h.symm p.1)
      if p.2 = 0 then m.speed * m.angle.cos else m.speed * m.angle.sin
    let c := k.forwardKinematics.mulVec moduleStatesMat
    some ⟨c 0, c 1, c 2⟩
  else none

/-- `SwerveDriveKinematics.normalizeWheelSpeeds` (returns the mutated list):
take the maximum of the signed speeds (Python `max` over the speeds), and if
it exceeds `attainableMaxSpeed` multiply every speed by
`attainableMaxSpeed / realMaxSpeed`. -/
def SwerveDriveKinematics.normalizeWheelSpeeds (moduleStates : List SwerveModuleState)
    (attainableMaxSpeed : ℝ) : List SwerveModuleState :=
  match moduleStates with
  | [] => moduleStates
  | m0 :: rest =>
    let realMaxSpeed := (rest.map SwerveModuleState.speed).foldl max m0.speed
    if attainableMaxSpeed < realMaxSpeed then
      (m0 :: rest).map fun m => ⟨m.speed * (attainableMaxSpeed / realMaxSpeed), m.angle⟩
    else moduleStates

/-- `wpilib.kinematics.swerve.SwerveDriveOdometry` state. -/
structure SwerveDriveOdometry where
  kinematics : SwerveDriveKinematics
  pose : Pose2d
  previousTime : Option ℝ
  previousAngle : Rotation2d
  gyroOffset : Rotation2d

/-- `SwerveDriveOdometry.__init__`. -/
def SwerveDriveOdometry.create (kinematics : SwerveDriveKinematics)
    (gyroAngle : Rotation2d) (initialPose : Pose2d) : SwerveDriveOdometry :=
  ⟨kinematics, initialPose, none, initialPose.rotation,
    initialPose.rotation.sub gyroAngle⟩

/-- `SwerveDriveOdometry.resetPosition`. -/
def SwerveDriveOdometry.resetPosition (o : SwerveDriveOdometry) (pose : Pose2d)
    (gyroAngle : Rotation2d) : SwerveDriveOdometry :=
  { o with pose := pose, previousAngle := pose.rotation,
           gyroOffset := pose.rotation.sub gyroAngle }

/-- `SwerveDriveOdometry.updateWithTime`: `none` models the arity `assert`
inside `toChassisSpeeds` failing.  The kinematics-derived angular rate is
discarded; the integrated pose's rotation is overwritten with the corrected
gyro angle. -/
def SwerveDriveOdometry.updateWithTime (o : SwerveDriveOdometry) (currentTime : ℝ)
    (gyroAngle : Rotation2d) (moduleStates : List SwerveModuleState) :
    Option (SwerveDriveOdometry × Pose2d) :=
  match o.kinematics.toChassisSpeeds moduleStates with
  | none => none
  | some speeds =>
    let deltaTime := match o.previousTime with
      | none => 0
      | some prevTime => currentTime - prevTime
    let angle := gyroAngle.add o.gyroOffset
    let newPose := o.pose.exp
      ⟨speeds.vx * deltaTime, speeds.vy * deltaTime, (angle.sub o.previousAngle).value⟩
    let finalPose : Pose2d := ⟨newPose.translation, angle⟩
    some (⟨o.kinematics, finalPose, some currentTime, angle, o.gyroOffset⟩, finalPose)

/-! ### Shared helper lemmas and concrete instances -/

theorem isclose_refl (a : ℝ) : isclose a a := by
  rw [isclose, sub_self, abs_zero]
  positivity

theorem approxEq_refl (t : Translation2d) : t.approxEq t :=
  ⟨isclose_refl _, isclose_refl _⟩

/-- Componentwise value of the inverse-kinematics matrix product: module `i`
receives x-velocity `vx + (-module.y + cor.y) * omega` and y-velocity
`vy + (module.x - cor.x) * omega`. -/
theorem inverseKinematicsMatrix_mulVec (n : ℕ) (modules : Fin n → Translation2d)
    (cor : Translation2d) (v : Fin 3 → ℝ) (i : Fin n) :
    (inverseKinematicsMatrix n modules cor).mulVec v (i, 0) =
      v 0 + (-(modules i).y + cor.y) * v 2 ∧
    (inverseKinematicsMatrix n modules cor).mulVec v (i, 1) =
      v 1 + ((modules i).x - cor.x) * v 2 := by
  constructor <;>
    simp [Matrix.mulVec, Matrix.dotProduct, inverseKinematicsMatrix, Fin.sum_univ_three]

/-- A two-module example kinematics object, exactly as built by
`SwerveDriveKinematics.ofWheels [⟨0, 1⟩, ⟨0, -1⟩]`. -/
def kEx : SwerveDriveKinematics :=
  { numModules := 2
    modules := ![⟨0, 1⟩, ⟨0, -1⟩]
    inverseKinematics := inverseKinematicsMatrix 2 ![⟨0, 1⟩, ⟨0, -1⟩] Translation2d.zero
    forwardKinematics := pinv (inverseKinematicsMatrix 2 ![⟨0, 1⟩, ⟨0, -1⟩] Translation2d.zero)
    prevCor := Translation2d.zero }

theorem ofWheels_kEx : SwerveDriveKinematics.ofWheels [⟨0, 1⟩, ⟨0, -1⟩] = some kEx := by
  have hm : (fun i => ([⟨0, 1⟩, ⟨0, -1⟩] : List Translation2d).get i) =
      ![(⟨0, 1⟩ : Translation2d), ⟨0, -1⟩] := by
    funext i
    fin_cases i <;> rfl
  rw [SwerveDriveKinematics.ofWheels, dif_pos (by norm_num)]
  rw [kEx]
  simp only [List.length_cons, List.length_nil, hm]

/-! ### C7: runtime-checked preconditions -/

/-- C7: `SwerveDriveKinematics` construction fails exactly when fewer than
two module offsets are supplied, and `toChassisSpeeds` fails exactly when
the number of module states differs from the configured module count. -/
theorem construction_and_arity_errors :
    (∀ wheels : List Translation2d,
        SwerveDriveKinematics.ofWheels wheels = none ↔ wheels.length < 2) ∧
    (∀ (k : SwerveDriveKinematics) (states : List SwerveModuleState),
        k.toChassisSpeeds states = none ↔ states.length ≠ k.numModules) := by
  constructor
  · intro wheels
    rcases le_or_lt 2 wheels.length with h | h
    · rw [SwerveDriveKinematics.ofWheels, dif_pos h]
      simp
      omega
    · rw [SwerveDriveKinematics.ofWheels, dif_neg (not_le.mpr h)]
      simp
      omega
  · intro k states
    by_cases h : states.length = k.numModules
    · rw [SwerveDriveKinematics.toChassisSpeeds, dif_pos h]
      simp [h]
    · rw [SwerveDriveKinematics.toChassisSpeeds, dif_neg h]
      simp [h]

/-! ### C8: resetPosition -/

/-- C8: `resetPosition` sets the pose, sets the previous angle to the pose
rotation, recomputes the gyro offset as `pose.rotation - gyroAngle`, and
leaves both the previous timestamp and the kinematics object untouched. -/
theorem resetPosition_spec (o : SwerveDriveOdometry) (p : Pose2d) (g : Rotation2d) :
    (o.resetPosition p g).pose = p ∧
    (o.resetPosition p g).previousAngle = p.rotation ∧
    (o.resetPosition p g).gyroOffset = p.rotation.sub g ∧
    (o.resetPosition p g).previousTime = o.previousTime ∧
    (o.resetPosition p g).kinematics = o.kinematics :=
  ⟨rfl, rfl, rfl, rfl, rfl⟩

/-! ### C9: field-relative to robot-relative conversion -/

/-- C9: `fromFieldRelativeSpeeds` rotates `(vx, vy)` by the negation of the
robot angle with the `Translation2d.rotateBy` rule and passes `omega`
through, for every consistently-stored robot angle. -/
theorem fromFieldRelativeSpeeds_spec (vx vy omega : ℝ) (r : Rotation2d)
    (hr : r.Consistent) :
    ChassisSpeeds.fromFieldRelativeSpeeds vx vy omega r =
      ⟨((Translation2d.mk vx vy).rotateBy r.neg).x,
        ((Translation2d.mk vx vy).rotateBy r.neg).y, omega⟩ := by
  simp only [ChassisSpeeds.fromFieldRelativeSpeeds, Translation2d.rotateBy, Rotation2d.neg,
    Rotation2d.ofRadians, Real.cos_neg, Real.sin_neg, hr.1, hr.2, ChassisSpeeds.mk.injEq]
  refine ⟨by ring, by ring, trivial⟩

theorem fromFieldRelativeSpeeds_spec_witness :
    Rotation2d.zero.Consistent ∧
    ChassisSpeeds.fromFieldRelativeSpeeds 1 2 3 Rotation2d.zero =
      ⟨((Translation2d.mk 1 2).rotateBy Rotation2d.zero.neg).x,
        ((Translation2d.mk 1 2).rotateBy Rotation2d.zero.neg).y, 3⟩ := by
  constructor
  · exact zero_consistent
  · exact fromFieldRelativeSpeeds_spec 1 2 3 Rotation2d.zero zero_consistent

/-! ### C10: inverse kinematics emits non-negative speeds -/

/-- C10: every module state produced by `toSwerveModuleStates` has
non-negative speed; the speed is the hypot of a Cartesian module velocity
and the direction lives entirely in the angle. -/
theorem toSwerveModuleStates_speed_nonneg (k : SwerveDriveKinematics)
    (s : ChassisSpeeds) (cor : Translation2d) (st : SwerveModuleState)
    (hst : st ∈ (k.toSwerveModuleStates s cor).2) :
    0 ≤ st.speed ∧ ∃ x y, st = ⟨hypot x y, Rotation2d.ofXY x y⟩ := by
  rw [SwerveDriveKinematics.toSwerveModuleStates] at hst
  simp only [List.mem_ofFn] at hst
  obtain ⟨i, hi⟩ := hst
  refine ⟨?_, ?_⟩
  · rw [← hi]
    exact Real.sqrt_nonneg _
  · exact ⟨_, _, hi.symm⟩

theorem toSwerveModuleStates_speed_nonneg_witness :
    0 ≤ ((kEx.toSwerveModuleStates ⟨1, 0, 0⟩ Translation2d.zero).2.headI).speed ∧
    ∃ x y, (kEx.toSwerveModuleStates ⟨1, 0, 0⟩ Translation2d.zero).2.headI =
      (⟨hypot x y, Rotation2d.ofXY x y⟩ : SwerveModuleState) := by
  refine toSwerveModuleStates_speed_nonneg kEx ⟨1, 0, 0⟩ Translation2d.zero _ ?_
  rw [SwerveDriveKinematics.toSwerveModuleStates]
  simp only [List.ofFn_succ, List.ofFn_zero]
  exact List.mem_cons_self _ _

/-! ### C3: wheel-speed normalization -/

/-- C3 counterexample: with module speeds `[-7, 1]` and attainable max `5`,
the maximum absolute speed (7) exceeds the attainable max, yet the code
leaves the speeds unchanged (Python `max` is over signed speeds, not
absolute values), contradicting the claimed scaling by `5/7`. -/
theorem normalizeWheelSpeeds_abs_counterexample :
    (5 : ℝ) < |(-7 : ℝ)| ∧
    SwerveDriveKinematics.normalizeWheelSpeeds
        [⟨-7, Rotation2d.zero⟩, ⟨1, Rotation2d.zero⟩] 5 =
      [⟨-7, Rotation2d.zero⟩, ⟨1, Rotation2d.zero⟩] ∧
    ¬ (SwerveDriveKinematics.normalizeWheelSpeeds
          [⟨-7, Rotation2d.zero⟩, ⟨1, Rotation2d.zero⟩] 5).map SwerveModuleState.speed =
        [(-7 : ℝ) * (5 / 7), 1 * (5 / 7)] := by
  have hmax : ([(⟨1, Rotation2d.zero⟩ : SwerveModuleState)].map SwerveModuleState.speed).foldl
      max (-7 : ℝ) = 1 := by
    simp [max_def]
    norm_num
  have heval : SwerveDriveKinematics.normalizeWheelSpeeds
      [⟨-7, Rotation2d.zero⟩, ⟨1, Rotation2d.zero⟩] 5 =
      [⟨-7, Rotation2d.zero⟩, ⟨1, Rotation2d.zero⟩] := by
    rw [SwerveDriveKinematics.normalizeWheelSpeeds]
    rw [if_neg]
    rw [hmax]
    norm_num
  refine ⟨by norm_num, heval, ?_⟩
  rw [heval]
  simp
  norm_num

/-- C3 amended: `normalizeWheelSpeeds` takes the maximum of the *signed*
speeds; if it exceeds the attainable max, every speed is scaled by
`attainableMaxSpeed / realMaxSpeed`, otherwise the list is unchanged. -/
theorem normalizeWheelSpeeds_signed_max (m0 : SwerveModuleState)
    (rest : List SwerveModuleState) (attainableMaxSpeed : ℝ) :
    (attainableMaxSpeed < (rest.map SwerveModuleState.speed).foldl max m0.speed →
      SwerveDriveKinematics.normalizeWheelSpeeds (m0 :: rest) attainableMaxSpeed =
        (m0 :: rest).map fun m =>
          ⟨m.speed *
            (attainableMaxSpeed / (rest.map SwerveModuleState.speed).foldl max m0.speed),
            m.angle⟩) ∧
    ((rest.map SwerveModuleState.speed).foldl max m0.speed ≤ attainableMaxSpeed →
      SwerveDriveKinematics.normalizeWheelSpeeds (m0 :: rest) attainableMaxSpeed =
        m0 :: rest) := by
  constructor
  · intro h
    rw [SwerveDriveKinematics.normalizeWheelSpeeds, if_pos h]
  · intro h
    rw [SwerveDriveKinematics.normalizeWheelSpeeds, if_neg (not_lt.mpr h)]

theorem normalizeWheelSpeeds_signed_max_witness :
    SwerveDriveKinematics.normalizeWheelSpeeds
        [⟨5, Rotation2d.zero⟩, ⟨6, Rotation2d.zero⟩, ⟨4, Rotation2d.zero⟩,
          ⟨7, Rotation2d.zero⟩] 5.5 =
      ([(⟨5, Rotation2d.zero⟩ : SwerveModuleState), ⟨6, Rotation2d.zero⟩,
          ⟨4, Rotation2d.zero⟩, ⟨7, Rotation2d.zero⟩].map fun m =>
        ⟨m.speed *
          (5.5 / (([(⟨6, Rotation2d.zero⟩ : SwerveModuleState), ⟨4, Rotation2d.zero⟩,
            ⟨7, Rotation2d.zero⟩].map SwerveModuleState.speed).foldl max
            (⟨5, Rotation2d.zero⟩ : SwerveModuleState).speed)),
          m.angle⟩) :=
  (normalizeWheelSpeeds_signed_max ⟨5, Rotation2d.zero⟩
    [⟨6, Rotation2d.zero⟩, ⟨4, Rotation2d.zero⟩, ⟨7, Rotation2d.zero⟩] 5.5).1
    (by simp [max_def]; norm_num)

/-! ### C5: the Rotation2d triple invariant -/

/-- C5 counterexample: `Rotation2d(2π)` stores `value = 2π`, but
`atan2(sin, cos)` of its components is `0`, so the claimed three-way
invariant `value = atan2(sin, cos)` fails for radian construction. -/
theorem rotation_invariant_counterexample :
    (Rotation2d.ofRadians (2 * Real.pi)).Consistent ∧
    atan2 (Rotation2d.ofRadians (2 * Real.pi)).sin
        (Rotation2d.ofRadians (2 * Real.pi)).cos ≠
      (Rotation2d.ofRadians (2 * Real.pi)).value := by
  refine ⟨ofRadians_consistent _, ?_⟩
  show atan2 (Real.sin (2 * Real.pi)) (Real.cos (2 * Real.pi)) ≠ 2 * Real.pi
  rw [atan2_cos_sin, principalAngle_two_pi]
  exact Real.two_pi_pos.ne

/-- C5 amended: every constructor stores `cos = cos(value)` and
`sin = sin(value)`; the two-argument constructor additionally satisfies
`value = atan2(sin, cos)` and collapses near-zero-magnitude input to the
identity rotation.  For radian-based construction (and hence negation and
scalar multiplication) the stored value is not reduced to `(-π, π]`, so
`value = atan2(sin, cos)` holds only up to multiples of `2π`. -/
theorem rotation_invariant_amended :
    (∀ v, (Rotation2d.ofRadians v).Consistent) ∧
    (∀ x y, (Rotation2d.ofXY x y).Consistent ∧
      (Rotation2d.ofXY x y).value =
        atan2 (Rotation2d.ofXY x y).sin (Rotation2d.ofXY x y).cos ∧
      (hypot x y ≤ 1e-6 → Rotation2d.ofXY x y = ⟨0, 1, 0⟩)) ∧
    (∀ a b : Rotation2d, (a.add b).Consistent) ∧
    (∀ r : Rotation2d, r.neg.Consistent) ∧
    (∀ a b : Rotation2d, (a.sub b).Consistent) ∧
    (∀ (r : Rotation2d) (k : ℝ), (r.mulScalar k).Consistent) ∧
    Rotation2d.zero.Consistent := by
  refine ⟨ofRadians_consistent, ?_, add_consistent, neg_consistent, sub_consistent,
    mulScalar_consistent, zero_consistent⟩
  intro x y
  refine ⟨ofXY_consistent x y, ?_, ?_⟩
  · rw [Rotation2d.ofXY]
  · intro h
    rw [Rotation2d.ofXY]
    have hc : ¬ hypot x y > 1e-6 := not_lt.mpr h
    simp only [if_neg hc]
    have h10 : (⟨1, 0⟩ : ℂ) = 1 := Complex.ext (by simp) (by simp)
    rw [Rotation2d.mk.injEq, atan2, h10, Complex.arg_one]
    exact ⟨rfl, rfl, rfl⟩

theorem rotation_invariant_amended_witness : Rotation2d.ofXY 0 0 = ⟨0, 1, 0⟩ :=
  (rotation_invariant_amended.2.1 0 0).2.2
    (by rw [hypot]; norm_num)

/-! ### C2: the center-of-rotation cache and the pseudoinverse -/

theorem kEx_prevCor_not_approx : ¬ kEx.prevCor.approxEq ⟨0, 2⟩ := by
  rintro ⟨-, h2⟩
  rw [isclose] at h2
  have hy : kEx.prevCor.y = 0 := rfl
  rw [hy] at h2
  rw [show |(0 : ℝ) - 2| = 2 by rw [abs_of_nonpos] <;> norm_num] at h2
  rw [show |(0 : ℝ)| = 0 by simp, show |(2 : ℝ)| = 2 by rw [abs_of_nonneg] <;> norm_num] at h2
  rw [max_eq_right (by norm_num : (0 : ℝ) ≤ 2)] at h2
  norm_num at h2

/-- C2 amended: `toSwerveModuleStates` never touches the cached
`forwardKinematics`; when the requested center of rotation differs from the
cached one it rebuilds the third column of the inverse-kinematics matrix
and records the new center, and otherwise leaves the object unchanged. -/
theorem toSwerveModuleStates_cache (k : SwerveDriveKinematics) (s : ChassisSpeeds)
    (cor : Translation2d) :
    ((k.toSwerveModuleStates s cor).1.forwardKinematics = k.forwardKinematics) ∧
    (¬ k.prevCor.approxEq cor →
      (k.toSwerveModuleStates s cor).1.inverseKinematics =
        rebuildThirdColumn k.numModules k.inverseKinematics k.modules cor ∧
      (k.toSwerveModuleStates s cor).1.prevCor = cor) ∧
    (k.prevCor.approxEq cor → (k.toSwerveModuleStates s cor).1 = k) := by
  refine ⟨rfl, ?_, ?_⟩
  · intro h
    simp only [SwerveDriveKinematics.toSwerveModuleStates, if_neg h]
    constructor <;> trivial
  · intro h
    simp only [SwerveDriveKinematics.toSwerveModuleStates, if_pos h]

theorem toSwerveModuleStates_cache_witness :
    ¬ kEx.prevCor.approxEq ⟨0, 2⟩ ∧
    ((kEx.toSwerveModuleStates ⟨0, 0, 1⟩ ⟨0, 2⟩).1.inverseKinematics =
        rebuildThirdColumn kEx.numModules kEx.inverseKinematics kEx.modules ⟨0, 2⟩ ∧
      (kEx.toSwerveModuleStates ⟨0, 0, 1⟩ ⟨0, 2⟩).1.prevCor = ⟨0, 2⟩) :=
  ⟨kEx_prevCor_not_approx,
    (toSwerveModuleStates_cache kEx ⟨0, 0, 1⟩ ⟨0, 2⟩).2.1 kEx_prevCor_not_approx⟩

/-- The kinematics state after requesting a changed center of rotation. -/
def kExShifted : SwerveDriveKinematics :=
  (kEx.toSwerveModuleStates ⟨0, 0, 1⟩ ⟨0, 2⟩).1

theorem kEx_inverseKinematics : kEx.inverseKinematics =
    inverseKinematicsMatrix 2 ![⟨0, 1⟩, ⟨0, -1⟩] Translation2d.zero := rfl

theorem kEx_modules : kEx.modules = ![⟨0, 1⟩, ⟨0, -1⟩] := rfl

/-- C2 counterexample: after a center-of-rotation change, the cached forward
kinematics map is still the pseudoinverse of the construction-time matrix
and differs from the pseudoinverse of the rebuilt inverse-kinematics matrix;
no lazy recomputation happens (entry `(0, (0,0))` is `1/2` versus `3/2`). -/
theorem pinv_not_recomputed_counterexample :
    kExShifted.forwardKinematics ≠ pinv kExShifted.inverseKinematics := by
  have hIK : kExShifted.inverseKinematics =
      rebuildThirdColumn 2 kEx.inverseKinematics kEx.modules ⟨0, 2⟩ := by
    show ((kEx.toSwerveModuleStates ⟨0, 0, 1⟩ ⟨0, 2⟩).1).inverseKinematics = _
    simp only [SwerveDriveKinematics.toSwerveModuleStates,
      if_neg kEx_prevCor_not_approx]
    rfl
  have hFK : kExShifted.forwardKinematics =
      pinv (inverseKinematicsMatrix 2 ![⟨0, 1⟩, ⟨0, -1⟩] Translation2d.zero) := rfl
  have hG0 : (inverseKinematicsMatrix 2 ![⟨0, 1⟩, ⟨0, -1⟩]
        Translation2d.zero).transpose *
      inverseKinematicsMatrix 2 ![⟨0, 1⟩, ⟨0, -1⟩] Translation2d.zero =
      !![2, 0, 0; 0, 2, 0; 0, 0, 2] := by
    ext i j
    fin_cases i <;> fin_cases j <;>
      norm_num [Matrix.mul_apply, Matrix.transpose_apply, inverseKinematicsMatrix,
        Translation2d.zero, Fintype.sum_prod_type, Fin.sum_univ_two,
        Matrix.vecHead, Matrix.vecTail, Fin.ext_iff]
  have hInv0 : (!![2, 0, 0; 0, 2, 0; 0, 0, 2] : Matrix (Fin 3) (Fin 3) ℝ)⁻¹ =
      !![1/2, 0, 0; 0, 1/2, 0; 0, 0, 1/2] := by
    apply Matrix.inv_eq_right_inv
    ext i j
    fin_cases i <;> fin_cases j <;>
      norm_num [Matrix.mul_apply, Fin.sum_univ_three, Matrix.vecHead, Matrix.vecTail, Fin.ext_iff]
  have hG1 : (rebuildThirdColumn 2 kEx.inverseKinematics kEx.modules
        ⟨0, 2⟩).transpose *
      rebuildThirdColumn 2 kEx.inverseKinematics kEx.modules ⟨0, 2⟩ =
      !![2, 0, 4; 0, 2, 0; 4, 0, 10] := by
    ext i j
    fin_cases i <;> fin_cases j <;>
      norm_num [Matrix.mul_apply, Matrix.transpose_apply, rebuildThirdColumn, kEx_inverseKinematics, kEx_modules,
        inverseKinematicsMatrix, Translation2d.zero, Fintype.sum_prod_type,
        Fin.sum_univ_two, Matrix.vecHead, Matrix.vecTail, Fin.ext_iff]
  have hInv1 : (!![2, 0, 4; 0, 2, 0; 4, 0, 10] : Matrix (Fin 3) (Fin 3) ℝ)⁻¹ =
      !![5/2, 0, -1; 0, 1/2, 0; -1, 0, 1/2] := by
    apply Matrix.inv_eq_right_inv
    ext i j
    fin_cases i <;> fin_cases j <;>
      norm_num [Matrix.mul_apply, Fin.sum_univ_three, Matrix.vecHead, Matrix.vecTail, Fin.ext_iff]
  intro hcontra
  have h1 : kExShifted.forwardKinematics 0 ((0 : Fin 2), (0 : Fin 2)) = 1/2 := by
    rw [hFK, pinv, hG0, hInv0]
    norm_num [Matrix.mul_apply, Matrix.transpose_apply, inverseKinematicsMatrix,
      Translation2d.zero, Fin.sum_univ_three, Matrix.vecHead, Matrix.vecTail, Fin.ext_iff]
  have h2 : pinv kExShifted.inverseKinematics 0 ((0 : Fin 2), (0 : Fin 2)) = 3/2 := by
    rw [hIK, pinv, hG1, hInv1]
    norm_num [Matrix.mul_apply, Matrix.transpose_apply, rebuildThirdColumn,
      kEx_inverseKinematics, kEx_modules, inverseKinematicsMatrix,
      Translation2d.zero, Fin.sum_univ_three,
      Matrix.vecHead, Matrix.vecTail, Fin.ext_iff]
  rw [hcontra, h2] at h1
  norm_num at h1

/-! ### C4: odometry update -/

/-- C4: `updateWithTime` computes `dt` as the difference to the previous
timestamp (0 on the first call), corrects the gyro angle by the stored
offset, takes `(vx, vy)` from forward kinematics (discarding its angular
rate), advances the pose by the exponential of the twist
`(vx*dt, vy*dt, (correctedAngle - previousAngle).value)`, forces the
returned pose's rotation to the corrected angle, and stores the corrected
angle and timestamp. -/
theorem updateWithTime_spec (o : SwerveDriveOdometry) (t : ℝ) (g : Rotation2d)
    (ms : List SwerveModuleState) (h : ms.length = o.kinematics.numModules) :
    ∃ speeds : ChassisSpeeds, o.kinematics.toChassisSpeeds ms = some speeds ∧
    ∃ dt : ℝ,
      (o.previousTime = none → dt = 0) ∧
      (∀ pt, o.previousTime = some pt → dt = t - pt) ∧
      ∃ newPose : Pose2d,
        newPose = o.pose.exp ⟨speeds.vx * dt, speeds.vy * dt,
          ((g.add o.gyroOffset).sub o.previousAngle).value⟩ ∧
        o.updateWithTime t g ms =
          some (⟨o.kinematics, ⟨newPose.translation, g.add o.gyroOffset⟩, some t,
            g.add o.gyroOffset, o.gyroOffset⟩,
            ⟨newPose.translation, g.add o.gyroOffset⟩) := by
  have hsome : ∃ c, o.kinematics.toChassisSpeeds ms = some c := by
    rw [SwerveDriveKinematics.toChassisSpeeds, dif_pos h]
    exact ⟨_, rfl⟩
  obtain ⟨c, hc⟩ := hsome
  refine ⟨c, hc, (match o.previousTime with | none => 0 | some pt => t - pt), ?_, ?_, ?_⟩
  · intro hnone
    rw [hnone]
  · intro pt hpt
    rw [hpt]
  · refine ⟨_, rfl, ?_⟩
    simp only [SwerveDriveOdometry.updateWithTime, hc]

/-- The odometry object used in witnesses: two-module kinematics, zero gyro
angle, identity initial pose. -/
def odoEx : SwerveDriveOdometry :=
  SwerveDriveOdometry.create kEx Rotation2d.zero ⟨⟨0, 0⟩, Rotation2d.zero⟩

theorem updateWithTime_spec_witness :
    ∃ speeds : ChassisSpeeds, odoEx.kinematics.toChassisSpeeds
        [⟨0, Rotation2d.zero⟩, ⟨0, Rotation2d.zero⟩] = some speeds ∧
    ∃ dt : ℝ,
      (odoEx.previousTime = none → dt = 0) ∧
      (∀ pt, odoEx.previousTime = some pt → dt = 1 - pt) ∧
      ∃ newPose : Pose2d,
        newPose = odoEx.pose.exp ⟨speeds.vx * dt, speeds.vy * dt,
          ((Rotation2d.zero.add odoEx.gyroOffset).sub odoEx.previousAngle).value⟩ ∧
        odoEx.updateWithTime 1 Rotation2d.zero [⟨0, Rotation2d.zero⟩, ⟨0, Rotation2d.zero⟩] =
          some (⟨odoEx.kinematics,
            ⟨newPose.translation, Rotation2d.zero.add odoEx.gyroOffset⟩, some 1,
            Rotation2d.zero.add odoEx.gyroOffset, odoEx.gyroOffset⟩,
            ⟨newPose.translation, Rotation2d.zero.add odoEx.gyroOffset⟩) :=
  updateWithTime_spec odoEx 1 Rotation2d.zero
    [⟨0, Rotation2d.zero⟩, ⟨0, Rotation2d.zero⟩] rfl

/-! ### C6: forward kinematics is a left inverse of inverse kinematics -/

theorem fin_cast_cast {n m : ℕ} (h : n = m) (h2 : m = n) (i : Fin m) :
    Fin.cast h (Fin.cast h2 i) = i := by
  subst h
  rfl

theorem Translation2d.eq_of_fields {a b : Translation2d} (hx : a.x = b.x)
    (hy : a.y = b.y) : a = b := by
  cases a
  cases b
  simp_all

/-- The Gram matrix of the inverse-kinematics matrix is nonsingular as soon
as two module offsets differ. -/
theorem gram_det_ne_zero (n : ℕ) (modules : Fin n → Translation2d)
    (cor : Translation2d) (hmod : ∃ i j, modules i ≠ modules j) :
    ((inverseKinematicsMatrix n modules cor).transpose *
      inverseKinematicsMatrix n modules cor).det ≠ 0 := by
  intro hdet
  obtain ⟨w, hw0, hw⟩ := Matrix.exists_mulVec_eq_zero_iff.2 hdet
  have hdot : Matrix.dotProduct ((inverseKinematicsMatrix n modules cor).mulVec w)
      ((inverseKinematicsMatrix n modules cor).mulVec w) = 0 := by
    have h1 : Matrix.dotProduct w
        (((inverseKinematicsMatrix n modules cor).transpose *
          inverseKinematicsMatrix n modules cor).mulVec w) = 0 := by
      rw [hw]
      exact Matrix.dotProduct_zero w
    rwa [← Matrix.mulVec_mulVec, Matrix.dotProduct_mulVec,
      Matrix.vecMul_transpose] at h1
  have hAw : (inverseKinematicsMatrix n modules cor).mulVec w = 0 :=
    Matrix.dotProduct_self_eq_zero.1 hdot
  have h0 : ∀ i : Fin n, w 0 + (-(modules i).y + cor.y) * w 2 = 0 := by
    intro i
    have hc := congrFun hAw (i, 0)
    rwa [(inverseKinematicsMatrix_mulVec n modules cor w i).1, Pi.zero_apply] at hc
  have h1 : ∀ i : Fin n, w 1 + ((modules i).x - cor.x) * w 2 = 0 := by
    intro i
    have hc := congrFun hAw (i, 1)
    rwa [(inverseKinematicsMatrix_mulVec n modules cor w i).2, Pi.zero_apply] at hc
  obtain ⟨i, j, hij⟩ := hmod
  by_cases hw2 : w 2 = 0
  · refine hw0 ?_
    funext m
    fin_cases m
    · have he := h0 i
      rw [hw2] at he
      simpa using he
    · have he := h1 i
      rw [hw2] at he
      simpa using he
    · simpa using hw2
  · refine hij (Translation2d.eq_of_fields ?_ ?_)
    · have e1 := h1 i
      have e2 := h1 j
      have he : ((modules i).x - cor.x) * w 2 = ((modules j).x - cor.x) * w 2 := by
        linarith
      have := mul_right_cancel₀ hw2 he
      linarith
    · have e1 := h0 i
      have e2 := h0 j
      have he : (-(modules i).y + cor.y) * w 2 = (-(modules j).y + cor.y) * w 2 := by
        linarith
      have := mul_right_cancel₀ hw2 he
      linarith

/-- Reconstructing `(speed*cos, speed*sin)` from a module state recovers the
module's Cartesian velocity exactly, provided the velocity is zero or has
magnitude above the constructor's `1e-6` threshold. -/
theorem hypot_mul_ofXY {x y : ℝ} (h : (x = 0 ∧ y = 0) ∨ 1e-6 < hypot x y) :
    hypot x y * (Rotation2d.ofXY x y).cos = x ∧
    hypot x y * (Rotation2d.ofXY x y).sin = y := by
  rcases h with ⟨hx, hy⟩ | h
  · subst hx
    subst hy
    rw [hypot]
    norm_num
  · have hm0 : (0 : ℝ) < hypot x y := lt_trans (by norm_num) h
    rw [Rotation2d.ofXY]
    simp only [if_pos h]
    constructor <;> field_simp

/-- C6: for a kinematics object in its freshly-constructed state (cached
matrix matching the cached center of rotation and cached pseudoinverse of
that matrix), with at least two distinct module positions, the round trip
`toChassisSpeeds (toSwerveModuleStates s)` returns exactly `s`, provided no
module velocity falls in the degenerate band `(0, 1e-6]` where the rotation
constructor collapses the direction. -/
theorem forward_inverse_roundtrip (k : SwerveDriveKinematics) (s : ChassisSpeeds)
    (hIK : k.inverseKinematics =
      inverseKinematicsMatrix k.numModules k.modules k.prevCor)
    (hFK : k.forwardKinematics = pinv k.inverseKinematics)
    (hmod : ∃ i j : Fin k.numModules, k.modules i ≠ k.modules j)
    (hnd : ∀ i : Fin k.numModules,
      (k.inverseKinematics.mulVec ![s.vx, s.vy, s.omega] (i, 0) = 0 ∧
        k.inverseKinematics.mulVec ![s.vx, s.vy, s.omega] (i, 1) = 0) ∨
      1e-6 < hypot (k.inverseKinematics.mulVec ![s.vx, s.vy, s.omega] (i, 0))
        (k.inverseKinematics.mulVec ![s.vx, s.vy, s.omega] (i, 1))) :
    k.toChassisSpeeds (k.toSwerveModuleStates s k.prevCor).2 = some s := by
  have hstates : (k.toSwerveModuleStates s k.prevCor).2 =
      List.ofFn (fun i : Fin k.numModules =>
        (⟨hypot (k.inverseKinematics.mulVec ![s.vx, s.vy, s.omega] (i, 0))
            (k.inverseKinematics.mulVec ![s.vx, s.vy, s.omega] (i, 1)),
          Rotation2d.ofXY (k.inverseKinematics.mulVec ![s.vx, s.vy, s.omega] (i, 0))
            (k.inverseKinematics.mulVec ![s.vx, s.vy, s.omega] (i, 1))⟩ :
          SwerveModuleState)) := by
    simp only [SwerveDriveKinematics.toSwerveModuleStates, if_pos (approxEq_refl _)]
  rw [hstates, SwerveDriveKinematics.toChassisSpeeds]
  rw [dif_pos (List.length_ofFn _)]
  have hvec : (fun p : Fin k.numModules × Fin 2 =>
      let m := (List.ofFn (fun i : Fin k.numModules =>
        (⟨hypot (k.inverseKinematics.mulVec ![s.vx, s.vy, s.omega] (i, 0))
            (k.inverseKinematics.mulVec ![s.vx, s.vy, s.omega] (i, 1)),
          Rotation2d.ofXY (k.inverseKinematics.mulVec ![s.vx, s.vy, s.omega] (i, 0))
            (k.inverseKinematics.mulVec ![s.vx, s.vy, s.omega] (i, 1))⟩ :
          SwerveModuleState))).get (Fin.cast (List.length_ofFn _).symm p.1)
      if p.2 = 0 then m.speed * m.angle.cos else m.speed * m.angle.sin) =
      k.inverseKinematics.mulVec ![s.vx, s.vy, s.omega] := by
    funext p
    obtain ⟨i, c⟩ := p
    simp only [List.get_ofFn]
    rw [fin_cast_cast]
    fin_cases c
    · simpa using (hypot_mul_ofXY (hnd i)).1
    · simpa using (hypot_mul_ofXY (hnd i)).2
  rw [hvec, hFK, hIK]
  have hone : pinv (inverseKinematicsMatrix k.numModules k.modules k.prevCor) *
      inverseKinematicsMatrix k.numModules k.modules k.prevCor = 1 := by
    rw [pinv, Matrix.mul_assoc]
    exact Matrix.nonsing_inv_mul _
      (isUnit_iff_ne_zero.mpr (gram_det_ne_zero _ _ _ hmod))
  simp only [Matrix.mulVec_mulVec, hone, Matrix.one_mulVec]
  obtain ⟨vx, vy, om⟩ := s
  rfl

theorem forward_inverse_roundtrip_witness :
    kEx.toChassisSpeeds (kEx.toSwerveModuleStates ⟨1, 0, 0⟩ kEx.prevCor).2 =
      some ⟨1, 0, 0⟩ :=
  forward_inverse_roundtrip kEx ⟨1, 0, 0⟩ rfl rfl
    (by
      show ∃ i j : Fin 2, (![(⟨0, 1⟩ : Translation2d), ⟨0, -1⟩]) i ≠
        (![(⟨0, 1⟩ : Translation2d), ⟨0, -1⟩]) j
      refine ⟨0, 1, fun h => ?_⟩
      have hy := congrArg Translation2d.y h
      simp only [Matrix.cons_val_zero, Matrix.cons_val_one, Matrix.head_cons] at hy
      norm_num at hy)
    (by
      show ∀ i : Fin 2,
        ((inverseKinematicsMatrix 2 ![⟨0, 1⟩, ⟨0, -1⟩] Translation2d.zero).mulVec
            ![1, 0, 0] (i, 0) = 0 ∧
          (inverseKinematicsMatrix 2 ![⟨0, 1⟩, ⟨0, -1⟩] Translation2d.zero).mulVec
            ![1, 0, 0] (i, 1) = 0) ∨
        1e-6 < hypot
          ((inverseKinematicsMatrix 2 ![⟨0, 1⟩, ⟨0, -1⟩] Translation2d.zero).mulVec
            ![1, 0, 0] (i, 0))
          ((inverseKinematicsMatrix 2 ![⟨0, 1⟩, ⟨0, -1⟩] Translation2d.zero).mulVec
            ![1, 0, 0] (i, 1))
      intro i
      right
      rw [(inverseKinematicsMatrix_mulVec 2 ![⟨0, 1⟩, ⟨0, -1⟩] Translation2d.zero
          ![1, 0, 0] i).1,
        (inverseKinematicsMatrix_mulVec 2 ![⟨0, 1⟩, ⟨0, -1⟩] Translation2d.zero
          ![1, 0, 0] i).2]
      norm_num [Matrix.cons_val_zero, Matrix.cons_val_one, Matrix.head_cons,
        Translation2d.zero, hypot, Real.sqrt_one])

/-! ### C1: the exp/log round trip -/

theorem principalAngle_eq_of_congr {x y : ℝ} (hy : y ∈ Set.Ioc (-Real.pi) Real.pi)
    (h : ∃ z : ℤ, x = y + z * (2 * Real.pi)) : principalAngle x = y := by
  obtain ⟨z, hz⟩ := h
  have hx : x = y - (-z : ℤ) * (2 * Real.pi) := by
    rw [hz]
    push_cast
    ring
  rw [hx, principalAngle_sub_int_mul, principalAngle_eq_self hy]

/-- `Pose2d.exp` on a twist with zero rotation component. -/
theorem exp_zero_twist (p : Pose2d) (tx ty : ℝ) :
    p.exp ⟨tx, ty, 0⟩ = p.add ⟨⟨tx, ty⟩, ⟨0, 1, 0⟩⟩ := by
  simp only [Pose2d.exp]
  rw [if_pos (by norm_num : |(0 : ℝ)| < 1e-9)]
  rw [Real.cos_zero, Real.sin_zero, ofXY_one_zero]
  norm_num

/-- `Pose2d.exp` on a twist whose rotation component avoids the small-angle
branch. -/
theorem exp_big_twist (p : Pose2d) (tx ty θ : ℝ) (hθ : ¬ |θ| < 1e-9) :
    p.exp ⟨tx, ty, θ⟩ = p.add ⟨⟨tx * (Real.sin θ / θ) - ty * ((1 - Real.cos θ) / θ),
      tx * ((1 - Real.cos θ) / θ) + ty * (Real.sin θ / θ)⟩,
      ⟨principalAngle θ, Real.cos θ, Real.sin θ⟩⟩ := by
  simp only [Pose2d.exp]
  rw [if_neg hθ, if_neg hθ, ofXY_cos_sin]

/-- `Pose2d.log` when the relative rotation is the identity triple. -/
theorem log_of_sub_zero {p q : Pose2d}
    (h : q.rotation.sub p.rotation = ⟨0, 1, 0⟩) :
    p.log q = ⟨((q.translation.sub p.translation).rotateBy p.rotation.neg).x,
      ((q.translation.sub p.translation).rotateBy p.rotation.neg).y, 0⟩ := by
  simp only [Pose2d.log, Pose2d.sub, h]
  rw [if_pos (by norm_num : |(1 : ℝ) - 1| < 1e-9)]
  have hz : -(0.5 * (0 : ℝ)) = 0 := by norm_num
  rw [hz]
  have h1 : (1 : ℝ) - 1 / 12 * 0 ^ 2 = 1 := by norm_num
  rw [h1, ofXY_one_zero]
  rw [show hypot 1 (0.5 * (0 : ℝ)) = 1 by rw [hypot]; norm_num]
  simp only [Translation2d.rotateBy, Translation2d.mulScalar, Twist2d.mk.injEq]
  norm_num

/-- `Pose2d.log` when the relative rotation avoids the small-angle branch
and the half-angle rotation constructor input is above the `1e-6`
normalisation threshold. -/
theorem log_of_sub_big {p q : Pose2d} {θ : ℝ}
    (h : q.rotation.sub p.rotation = ⟨θ, Real.cos θ, Real.sin θ⟩)
    (hc : ¬ |Real.cos θ - 1| < 1e-9)
    (hm : hypot (-(0.5 * θ * Real.sin θ) / (Real.cos θ - 1)) (-(0.5 * θ)) > 1e-6) :
    p.log q =
      ⟨((q.translation.sub p.translation).rotateBy p.rotation.neg).x *
          (-(0.5 * θ * Real.sin θ) / (Real.cos θ - 1)) +
        ((q.translation.sub p.translation).rotateBy p.rotation.neg).y * (0.5 * θ),
        -(((q.translation.sub p.translation).rotateBy p.rotation.neg).x * (0.5 * θ)) +
        ((q.translation.sub p.translation).rotateBy p.rotation.neg).y *
          (-(0.5 * θ * Real.sin θ) / (Real.cos θ - 1)), θ⟩ := by
  have hm0 : (0 : ℝ) < hypot (-(0.5 * θ * Real.sin θ) / (Real.cos θ - 1)) (-(0.5 * θ)) :=
    lt_trans (by norm_num) hm
  simp only [Pose2d.log, Pose2d.sub, h]
  rw [if_neg hc]
  rw [Rotation2d.ofXY]
  simp only [if_pos hm]
  have hms : hypot (-(0.5 * θ * Real.sin θ) / (Real.cos θ - 1)) (0.5 * θ) =
      hypot (-(0.5 * θ * Real.sin θ) / (Real.cos θ - 1)) (-(0.5 * θ)) := by
    rw [hypot, hypot]
    ring_nf
  have hcne : Real.cos θ - 1 ≠ 0 := fun h0 => hc (by rw [h0]; norm_num)
  rw [hms]
  generalize hgen : hypot (-(0.5 * θ * Real.sin θ) / (Real.cos θ - 1)) (-(0.5 * θ)) = m at hm0 ⊢
  have hmne : m ≠ 0 := ne_of_gt hm0
  simp only [Translation2d.rotateBy, Translation2d.mulScalar, Twist2d.mk.injEq]
  refine ⟨?_, ?_, trivial⟩ <;> field_simp <;> ring

/-- The chord/arc algebraic identities behind the exp/log round trip, away
from the singular branches. -/
theorem exp_log_keys {θ : ℝ} (hθ : θ ≠ 0) (hc : Real.cos θ - 1 ≠ 0) :
    -(0.5 * θ * Real.sin θ) / (Real.cos θ - 1) * (Real.sin θ / θ) +
      0.5 * θ * ((1 - Real.cos θ) / θ) = 1 ∧
    0.5 * θ * (Real.sin θ / θ) -
      -(0.5 * θ * Real.sin θ) / (Real.cos θ - 1) * ((1 - Real.cos θ) / θ) = 0 := by
  have hpy := Real.sin_sq_add_cos_sq θ
  constructor
  · field_simp
    linear_combination (-(1 / 2) * θ ^ 2) * hpy
  · field_simp
    ring

/-- Applying a transform whose translation is the frame-relative difference
and whose rotation is (modulo `2π`) the rotation difference lands exactly on
the target pose. -/
theorem exp_log_finish (p q : Pose2d) (hp : p.rotation.Consistent)
    (hq : q.rotation.Consistent)
    (hqv : q.rotation.value ∈ Set.Ioc (-Real.pi) Real.pi)
    (r : Rotation2d) (hr : r.Consistent)
    (hcong : ∃ z : ℤ, p.rotation.value + r.value =
      q.rotation.value + z * (2 * Real.pi)) :
    p.add ⟨(q.translation.sub p.translation).rotateBy p.rotation.neg, r⟩ = q := by
  obtain ⟨z, hz⟩ := hcong
  have htrans : p.translation.add
      (((q.translation.sub p.translation).rotateBy p.rotation.neg).rotateBy p.rotation) =
      q.translation := by
    rw [rotateBy_neg_rotateBy hp]
    refine Translation2d.eq_of_fields ?_ ?_ <;>
      simp [Translation2d.add, Translation2d.sub]
  have hrot : p.rotation.add r = q.rotation := by
    rw [add_eq_of_consistent hp hr]
    have h1 : principalAngle (p.rotation.value + r.value) = q.rotation.value :=
      principalAngle_eq_of_congr hqv ⟨z, hz⟩
    have h2 : Real.cos (p.rotation.value + r.value) = Real.cos q.rotation.value := by
      rw [hz, Real.cos_add_int_mul_two_pi]
    have h3 : Real.sin (p.rotation.value + r.value) = Real.sin q.rotation.value := by
      rw [hz, Real.sin_add_int_mul_two_pi]
    rw [h1, h2, h3, ← hq.1, ← hq.2]
  rw [Pose2d.add, htrans, hrot]

theorem exp_log_finish' (p q : Pose2d) (hp : p.rotation.Consistent)
    (hq : q.rotation.Consistent)
    (hqv : q.rotation.value ∈ Set.Ioc (-Real.pi) Real.pi)
    (r : Rotation2d) (hr : r.Consistent)
    (hcong : ∃ z : ℤ, p.rotation.value + r.value =
      q.rotation.value + z * (2 * Real.pi))
    (u : Translation2d)
    (hu : u = (q.translation.sub p.translation).rotateBy p.rotation.neg) :
    p.add ⟨u, r⟩ = q := by
  rw [hu]
  exact exp_log_finish p q hp hq hqv r hr hcong

/-- C1 amended: the exp/log round trip is exact for consistently-stored
poses whose target rotation value lies in `(-π, π]`, provided the relative
rotation angle is either exactly zero or at least `1e-4` radians in
magnitude (staying clear of the truncated-series small-angle branches, whose
error is far below floating tolerance but nonzero in exact arithmetic). -/
theorem exp_log_roundtrip (p q : Pose2d) (hp : p.rotation.Consistent)
    (hq : q.rotation.Consistent)
    (hqv : q.rotation.value ∈ Set.Ioc (-Real.pi) Real.pi)
    (hbr : (q.rotation.sub p.rotation).value = 0 ∨
      1e-4 ≤ |(q.rotation.sub p.rotation).value|) :
    p.exp (p.log q) = q := by
  have hsub := sub_eq_of_consistent hq hp
  obtain ⟨z, hzeq⟩ :=
    exists_principalAngle_eq_sub (q.rotation.value - p.rotation.value)
  have hθmem := principalAngle_mem (q.rotation.value - p.rotation.value)
  rw [hsub] at hbr
  dsimp only at hbr
  rcases hbr with hθ0 | hθbig
  · -- zero relative angle: both maps take the series branch, which is exact at 0
    have hcos1 : Real.cos (q.rotation.value - p.rotation.value) = 1 := by
      rw [← cos_principalAngle, hθ0, Real.cos_zero]
    have hsin0 : Real.sin (q.rotation.value - p.rotation.value) = 0 := by
      rw [← sin_principalAngle, hθ0, Real.sin_zero]
    have hsub0 : q.rotation.sub p.rotation = ⟨0, 1, 0⟩ := by
      rw [hsub, hcos1, hsin0, hθ0]
    rw [log_of_sub_zero hsub0, exp_zero_twist]
    refine exp_log_finish p q hp hq hqv ⟨0, 1, 0⟩ zero_consistent ⟨-z, ?_⟩
    rw [hθ0] at hzeq
    show p.rotation.value + 0 = q.rotation.value + (-z : ℤ) * (2 * Real.pi)
    push_cast
    linarith
  · -- large relative angle: both maps take the exact closed-form branch
    set θv := principalAngle (q.rotation.value - p.rotation.value) with hθvdef
    have hcosδ : Real.cos (q.rotation.value - p.rotation.value) = Real.cos θv :=
      (cos_principalAngle _).symm
    have hsinδ : Real.sin (q.rotation.value - p.rotation.value) = Real.sin θv :=
      (sin_principalAngle _).symm
    have hsubB : q.rotation.sub p.rotation = ⟨θv, Real.cos θv, Real.sin θv⟩ := by
      rw [hsub, hcosδ, hsinδ]
    have hπabs : |θv| ≤ Real.pi := abs_le.mpr ⟨le_of_lt hθmem.1, hθmem.2⟩
    have hθne : θv ≠ 0 := by
      intro h0
      rw [h0] at hθbig
      norm_num at hθbig
    have hθnot9 : ¬ |θv| < 1e-9 := by
      intro h
      have : (1e-9 : ℝ) < 1e-4 := by norm_num
      linarith
    have hcosbound : Real.cos θv ≤ 1 - 2 / Real.pi ^ 2 * θv ^ 2 :=
      Real.cos_le_one_sub_mul_cos_sq hπabs
    have hπlt : Real.pi < 3.15 := Real.pi_lt_d2
    have hπpos := Real.pi_pos
    have hπ2 : (0 : ℝ) < Real.pi ^ 2 := by positivity
    have hsq : (1e-4 : ℝ) ^ 2 ≤ θv ^ 2 := by
      have h := sq_abs θv
      nlinarith [hθbig]
    have hkey : (1 - Real.cos θv) * Real.pi ^ 2 ≥ 2 * θv ^ 2 := by
      have e1 : 2 / Real.pi ^ 2 * θv ^ 2 * Real.pi ^ 2 = 2 * θv ^ 2 := by
        field_simp
      nlinarith [hcosbound, hπ2, sq_nonneg θv]
    have h1mc : (1e-9 : ℝ) ≤ 1 - Real.cos θv := by
      nlinarith [Real.cos_le_one θv, hπlt, hπpos, hkey, hsq]
    have hcnot : ¬ |Real.cos θv - 1| < 1e-9 := by
      intro habs
      rw [abs_of_nonpos (by nlinarith [Real.cos_le_one θv])] at habs
      linarith
    have hcne : Real.cos θv - 1 ≠ 0 := by
      have : Real.cos θv - 1 < 0 := by linarith
      exact ne_of_lt this
    have hm : hypot (-(0.5 * θv * Real.sin θv) / (Real.cos θv - 1)) (-(0.5 * θv)) >
        1e-6 := by
      rw [hypot]
      have h1 : Real.sqrt ((-(0.5 * θv)) ^ 2) ≤
          Real.sqrt ((-(0.5 * θv * Real.sin θv) / (Real.cos θv - 1)) ^ 2 +
            (-(0.5 * θv)) ^ 2) :=
        Real.sqrt_le_sqrt
          (by nlinarith [sq_nonneg (-(0.5 * θv * Real.sin θv) / (Real.cos θv - 1))])
      have h2 : Real.sqrt ((-(0.5 * θv)) ^ 2) = |0.5 * θv| := by
        rw [Real.sqrt_sq_eq_abs, abs_neg]
      have h3 : |0.5 * θv| = 0.5 * |θv| := by
        rw [abs_mul]
        norm_num
      nlinarith [hθbig]
    obtain ⟨key1, key2⟩ := exp_log_keys hθne hcne
    rw [log_of_sub_big hsubB hcnot hm]
    rw [exp_big_twist p _ _ _ hθnot9]
    have hX : (((q.translation.sub p.translation).rotateBy p.rotation.neg).x *
          (-(0.5 * θv * Real.sin θv) / (Real.cos θv - 1)) +
        ((q.translation.sub p.translation).rotateBy p.rotation.neg).y * (0.5 * θv)) *
          (Real.sin θv / θv) -
        (-(((q.translation.sub p.translation).rotateBy p.rotation.neg).x * (0.5 * θv)) +
          ((q.translation.sub p.translation).rotateBy p.rotation.neg).y *
            (-(0.5 * θv * Real.sin θv) / (Real.cos θv - 1))) *
          ((1 - Real.cos θv) / θv) =
        ((q.translation.sub p.translation).rotateBy p.rotation.neg).x := by
      linear_combination ((q.translation.sub p.translation).rotateBy p.rotation.neg).x *
          key1 +
        ((q.translation.sub p.translation).rotateBy p.rotation.neg).y * key2
    have hY : (((q.translation.sub p.translation).rotateBy p.rotation.neg).x *
          (-(0.5 * θv * Real.sin θv) / (Real.cos θv - 1)) +
        ((q.translation.sub p.translation).rotateBy p.rotation.neg).y * (0.5 * θv)) *
          ((1 - Real.cos θv) / θv) +
        (-(((q.translation.sub p.translation).rotateBy p.rotation.neg).x * (0.5 * θv)) +
          ((q.translation.sub p.translation).rotateBy p.rotation.neg).y *
            (-(0.5 * θv * Real.sin θv) / (Real.cos θv - 1))) *
          (Real.sin θv / θv) =
        ((q.translation.sub p.translation).rotateBy p.rotation.neg).y := by
      linear_combination
        (-((q.translation.sub p.translation).rotateBy p.rotation.neg).x) * key2 +
        ((q.translation.sub p.translation).rotateBy p.rotation.neg).y * key1
    have hpp : principalAngle θv = θv :=
      principalAngle_eq_self hθmem
    rw [hpp]
    refine exp_log_finish' p q hp hq hqv ⟨θv, Real.cos θv, Real.sin θv⟩ ⟨rfl, rfl⟩
      ⟨-z, ?_⟩ _ (Translation2d.eq_of_fields hX hY)
    show p.rotation.value + θv = q.rotation.value + (-z : ℤ) * (2 * Real.pi)
    push_cast
    linarith [hzeq]

/-- C1 counterexample: from the identity pose, the pose `q` at the origin
with rotation value `2π` (a perfectly finite, consistently-stored pose) is
not recovered by `exp (log q)`: the round trip returns rotation value `0`,
off by the full turn `2π`, because `log` reads the relative angle through
the normalising two-argument constructor. -/
theorem exp_log_roundtrip_counterexample :
    Pose2d.exp ⟨⟨0, 0⟩, Rotation2d.zero⟩
        (Pose2d.log ⟨⟨0, 0⟩, Rotation2d.zero⟩
          ⟨⟨0, 0⟩, Rotation2d.ofRadians (2 * Real.pi)⟩) ≠
      ⟨⟨0, 0⟩, Rotation2d.ofRadians (2 * Real.pi)⟩ := by
  intro hcontra
  have hsub0 : (Rotation2d.ofRadians (2 * Real.pi)).sub Rotation2d.zero =
      ⟨0, 1, 0⟩ := by
    rw [sub_eq_of_consistent (ofRadians_consistent _) zero_consistent]
    rw [show (Rotation2d.ofRadians (2 * Real.pi)).value - Rotation2d.zero.value =
      2 * Real.pi from by norm_num [Rotation2d.ofRadians, Rotation2d.zero]]
    rw [principalAngle_two_pi, Real.cos_two_pi, Real.sin_two_pi]
  rw [@log_of_sub_zero ⟨⟨0, 0⟩, Rotation2d.zero⟩
    ⟨⟨0, 0⟩, Rotation2d.ofRadians (2 * Real.pi)⟩ hsub0] at hcontra
  rw [exp_zero_twist] at hcontra
  have hval := congrArg (fun pose : Pose2d => pose.rotation.value) hcontra
  dsimp only [Pose2d.add] at hval
  rw [add_eq_of_consistent zero_consistent
    (show (⟨0, 1, 0⟩ : Rotation2d).Consistent from zero_consistent)] at hval
  rw [show Rotation2d.zero.value + (⟨0, 1, 0⟩ : Rotation2d).value = (0 : ℝ)
    from by norm_num [Rotation2d.zero]] at hval
  rw [principalAngle_zero] at hval
  have hval2 : (0 : ℝ) = 2 * Real.pi := hval
  exact Real.two_pi_pos.ne' hval2.symm

theorem exp_log_roundtrip_witness :
    Pose2d.exp ⟨⟨0, 0⟩, Rotation2d.zero⟩
        (Pose2d.log ⟨⟨0, 0⟩, Rotation2d.zero⟩ ⟨⟨0, 0⟩, Rotation2d.zero⟩) =
      ⟨⟨0, 0⟩, Rotation2d.zero⟩ :=
  exp_log_roundtrip ⟨⟨0, 0⟩, Rotation2d.zero⟩ ⟨⟨0, 0⟩, Rotation2d.zero⟩
    zero_consistent zero_consistent
    ⟨neg_neg_iff_pos.mpr Real.pi_pos, Real.pi_pos.le⟩
    (Or.inl (by
      rw [sub_eq_of_consistent zero_consistent zero_consistent]
      show principalAngle (Rotation2d.zero.value - Rotation2d.zero.value) = 0
      rw [show Rotation2d.zero.value - Rotation2d.zero.value = (0 : ℝ)
        from by norm_num [Rotation2d.zero]]
      exact principalAngle_zero))
